import Mathlib

/-!
Verification of the playback-orchestration core of a digital-signage system.

The development shallowly embeds the Python sources:
`playlist_manager.py` (playback strategies and playlist management),
`video_scanner.py` (directory scanning and change reconciliation),
`main.py` (orchestrator error handling and lifecycle), and the data model
of `config.py`.  File names and paths are modelled as `List Char` so that
all definitions are kernel-computable; filesystem contents are passed in
explicitly as data.
-/

/-- Strings are modelled as lists of characters (kernel-computable). -/
abbrev Str := List Char

/-- Case-insensitive lowering of a character list, mirroring Python's
`str.lower()` on the relevant ASCII file names. -/
def lowerStr (s : Str) : Str := s.map Char.toLower

/-- Lexicographic comparison on character lists by code point, mirroring
Python's built-in string ordering used by `list.sort`. -/
def strLeB : Str → Str → Bool
  | [], _ => true
  | _ :: _, [] => false
  | a :: as, b :: bs =>
    if a.toNat < b.toNat then true
    else if a.toNat = b.toNat then strLeB as bs
    else false

theorem strLeB_total (a b : Str) : strLeB a b = true ∨ strLeB b a = true := by
  induction a generalizing b with
  | nil => left; rfl
  | cons x xs ih =>
    cases b with
    | nil => right; rfl
    | cons y ys =>
      rcases Nat.lt_trichotomy x.toNat y.toNat with h | h | h
      · left; simp [strLeB, h]
      · rcases ih ys with h2 | h2
        · left; simp [strLeB, h, h2]
        · right; simp [strLeB, h.symm, h2]
      · right; simp [strLeB, h]

theorem strLeB_cons (x y : Char) (xs ys : Str) :
    strLeB (x :: xs) (y :: ys) = true ↔
      x.toNat < y.toNat ∨ (x.toNat = y.toNat ∧ strLeB xs ys = true) := by
  simp only [strLeB]
  split
  next h => simp [h]
  next h =>
    split
    next h2 => simp [h, h2]
    next h2 => simp [h, h2]

theorem strLeB_trans (a b c : Str) (h1 : strLeB a b = true) (h2 : strLeB b c = true) :
    strLeB a c = true := by
  induction a generalizing b c with
  | nil => rfl
  | cons x xs ih =>
    cases b with
    | nil => simp [strLeB] at h1
    | cons y ys =>
      cases c with
      | nil => simp [strLeB] at h2
      | cons z zs =>
        rw [strLeB_cons] at h1 h2 ⊢
        rcases h1 with h1 | ⟨h1e, h1r⟩ <;> rcases h2 with h2 | ⟨h2e, h2r⟩
        · exact Or.inl (by omega)
        · exact Or.inl (by omega)
        · exact Or.inl (by omega)
        · exact Or.inr ⟨h1e.trans h2e, ih ys zs h1r h2r⟩

/-- `config.py` `VideoInfo`: metadata of one video file.  `file_path` is the
unique identity; `format_extension` is stored lower-cased by the validators. -/
structure VideoInfo where
  file_path : Str
  filename : Str
  file_size : Nat
  format_extension : Str
deriving DecidableEq, Repr

/-- `config.py` `Playlist`: ordered videos, zero-based cursor and the two
mode flags. -/
structure Playlist where
  videos : List VideoInfo
  current_index : Nat
  shuffle_enabled : Bool
  loop_enabled : Bool
deriving DecidableEq, Repr

/-- `playlist_manager.py` `SequentialStrategy.get_next_video`: returns the
updated playlist together with the selected video (the Python method mutates
`playlist.current_index` in place). -/
def SequentialStrategy.get_next_video (pl : Playlist) : Option VideoInfo × Playlist :=
  if pl.videos.length = 0 then (none, pl)
  else if pl.current_index ≥ pl.videos.length - 1 ∧ pl.loop_enabled = false then
    (none, pl)
  else
    let i := (pl.current_index + 1) % pl.videos.length
    (pl.videos[i]?, { pl with current_index := i })

/-- `playlist_manager.py` `SequentialStrategy.reset`. -/
def SequentialStrategy.reset (pl : Playlist) : Playlist :=
  { pl with current_index := 0 }

/-- State of the playlist after `m` successive sequential
`get_next_video` calls. -/
def seqRun (pl : Playlist) : Nat → Playlist
  | 0 => pl
  | m + 1 => (SequentialStrategy.get_next_video (seqRun pl m)).2

/-- Cursor position after `m` sequential calls. -/
def seqIdx (pl : Playlist) (m : Nat) : Nat := (seqRun pl m).current_index

/-- Value returned by the `(m+1)`-th sequential call. -/
def seqOut (pl : Playlist) (m : Nat) : Option VideoInfo :=
  (SequentialStrategy.get_next_video (seqRun pl m)).1

theorem seq_step_loop (pl : Playlist) (hne : pl.videos.length ≠ 0)
    (hloop : pl.loop_enabled = true) :
    SequentialStrategy.get_next_video pl =
      (pl.videos[(pl.current_index + 1) % pl.videos.length]?,
       { pl with current_index := (pl.current_index + 1) % pl.videos.length }) := by
  unfold SequentialStrategy.get_next_video
  rw [if_neg hne, if_neg (by simp [hloop])]

theorem seqRun_videos_loop (pl : Playlist) (hne : pl.videos.length ≠ 0)
    (hloop : pl.loop_enabled = true) (m : Nat) :
    (seqRun pl m).videos = pl.videos ∧ (seqRun pl m).loop_enabled = true := by
  induction m with
  | zero => exact ⟨rfl, hloop⟩
  | succ k ih =>
    have hk : seqRun pl (k + 1) =
        { seqRun pl k with
          current_index := ((seqRun pl k).current_index + 1) % (seqRun pl k).videos.length } := by
      show (SequentialStrategy.get_next_video (seqRun pl k)).2 = _
      rw [seq_step_loop (seqRun pl k) (by rw [ih.1]; exact hne) ih.2]
    rw [hk]
    exact ih

theorem seqIdx_formula (pl : Playlist) (hne : pl.videos.length ≠ 0)
    (hloop : pl.loop_enabled = true) (m : Nat) :
    seqIdx pl (m + 1) = (pl.current_index + m + 1) % pl.videos.length := by
  induction m with
  | zero =>
    show (SequentialStrategy.get_next_video (seqRun pl 0)).2.current_index = _
    rw [show seqRun pl 0 = pl from rfl, seq_step_loop pl hne hloop]
  | succ k ih =>
    show (SequentialStrategy.get_next_video (seqRun pl (k + 1))).2.current_index = _
    have hv := seqRun_videos_loop pl hne hloop (k + 1)
    rw [seq_step_loop (seqRun pl (k + 1)) (by rw [hv.1]; exact hne) hv.2]
    show ((seqRun pl (k + 1)).current_index + 1) % (seqRun pl (k + 1)).videos.length = _
    rw [hv.1]
    have hih : (seqRun pl (k + 1)).current_index = (pl.current_index + k + 1) % pl.videos.length := ih
    rw [hih, Nat.mod_add_mod]
    have harg : pl.current_index + k + 1 + 1 = pl.current_index + (k + 1) + 1 := by omega
    rw [harg]

theorem mod_window (len r j : Nat) (hr : r < len) (hj : j < len) :
    (r + j) % len = if r + j < len then r + j else r + j - len := by
  split
  · exact Nat.mod_eq_of_lt (by assumption)
  · rw [Nat.mod_eq_sub_mod (by omega)]
    exact Nat.mod_eq_of_lt (by omega)

/-- C4: for every non-empty playlist with loop enabled, each sequential
`get_next_video` call sets the cursor to `(previous cursor + 1) mod len` and
returns the entry at the new cursor; over any `len` consecutive calls every
index is visited exactly once (injectivity plus coverage of the window), and
the cycle repeats with period `len`. -/
theorem sequential_cycle (pl : Playlist) (hne : pl.videos.length ≠ 0)
    (hloop : pl.loop_enabled = true) :
    (∀ m, seqIdx pl (m + 1) = (seqIdx pl m + 1) % pl.videos.length) ∧
    (∀ m, seqOut pl m = pl.videos[seqIdx pl (m + 1)]?) ∧
    (∀ m j k, j < pl.videos.length → k < pl.videos.length →
      seqIdx pl (m + j + 1) = seqIdx pl (m + k + 1) → j = k) ∧
    (∀ m i, i < pl.videos.length →
      ∃ j, j < pl.videos.length ∧ seqIdx pl (m + j + 1) = i) ∧
    (∀ m, seqIdx pl (m + pl.videos.length + 1) = seqIdx pl (m + 1)) := by
  have hlen : 0 < pl.videos.length := Nat.pos_of_ne_zero hne
  refine ⟨?_, ?_, ?_, ?_, ?_⟩
  · intro m
    cases m with
    | zero =>
      rw [seqIdx_formula pl hne hloop 0]
      rfl
    | succ k =>
      rw [seqIdx_formula pl hne hloop (k + 1), seqIdx_formula pl hne hloop k,
        Nat.mod_add_mod]
      have harg : pl.current_index + k + 1 + 1 = pl.current_index + (k + 1) + 1 := by omega
      rw [harg]
  · intro m
    have hv := seqRun_videos_loop pl hne hloop m
    show (SequentialStrategy.get_next_video (seqRun pl m)).1 =
      pl.videos[(SequentialStrategy.get_next_video (seqRun pl m)).2.current_index]?
    rw [seq_step_loop (seqRun pl m) (by rw [hv.1]; exact hne) hv.2]
    simp [hv.1]
  · intro m j k hj hk h
    rw [seqIdx_formula pl hne hloop (m + j), seqIdx_formula pl hne hloop (m + k)] at h
    have e1 : pl.current_index + (m + j) + 1 = (pl.current_index + m + 1) + j := by omega
    have e2 : pl.current_index + (m + k) + 1 = (pl.current_index + m + 1) + k := by omega
    rw [e1, e2, ← Nat.mod_add_mod, ← Nat.mod_add_mod (pl.current_index + m + 1)] at h
    have hr : (pl.current_index + m + 1) % pl.videos.length < pl.videos.length :=
      Nat.mod_lt _ hlen
    rw [mod_window _ _ j hr hj, mod_window _ _ k hr hk] at h
    split_ifs at h <;> omega
  · intro m i hi
    have hr : (pl.current_index + m + 1) % pl.videos.length < pl.videos.length :=
      Nat.mod_lt _ hlen
    refine ⟨if (pl.current_index + m + 1) % pl.videos.length ≤ i then
        i - (pl.current_index + m + 1) % pl.videos.length
      else i + pl.videos.length - (pl.current_index + m + 1) % pl.videos.length,
      by split_ifs <;> omega, ?_⟩
    rw [seqIdx_formula pl hne hloop]
    have e1 : ∀ j, pl.current_index + (m + j) + 1 = (pl.current_index + m + 1) + j := by
      intro j; omega
    rw [e1, ← Nat.mod_add_mod]
    rw [mod_window _ _ _ hr (by split_ifs <;> omega)]
    split_ifs <;> omega
  · intro m
    rw [seqIdx_formula pl hne hloop (m + pl.videos.length), seqIdx_formula pl hne hloop m]
    have e1 : pl.current_index + (m + pl.videos.length) + 1 =
        (pl.current_index + m + 1) + pl.videos.length := by omega
    rw [e1, Nat.add_mod_right]

/-- Concrete two-video playlist used to witness the sequential-cycle theorem. -/
def seqWitnessPl : Playlist :=
  { videos :=
      [{ file_path := "a.mp4".data, filename := "a.mp4".data, file_size := 10,
         format_extension := ".mp4".data },
       { file_path := "b.mp4".data, filename := "b.mp4".data, file_size := 20,
         format_extension := ".mp4".data }],
    current_index := 0, shuffle_enabled := false, loop_enabled := true }

/-- Witness for the sequential-cycle theorem (C4) at a concrete playlist. -/
theorem sequential_cycle_witness :
    (seqWitnessPl.videos.length ≠ 0 ∧ seqWitnessPl.loop_enabled = true) ∧
    ((∀ m, seqIdx seqWitnessPl (m + 1) =
        (seqIdx seqWitnessPl m + 1) % seqWitnessPl.videos.length) ∧
    (∀ m, seqOut seqWitnessPl m = seqWitnessPl.videos[seqIdx seqWitnessPl (m + 1)]?) ∧
    (∀ m j k, j < seqWitnessPl.videos.length → k < seqWitnessPl.videos.length →
      seqIdx seqWitnessPl (m + j + 1) = seqIdx seqWitnessPl (m + k + 1) → j = k) ∧
    (∀ m i, i < seqWitnessPl.videos.length →
      ∃ j, j < seqWitnessPl.videos.length ∧ seqIdx seqWitnessPl (m + j + 1) = i) ∧
    (∀ m, seqIdx seqWitnessPl (m + seqWitnessPl.videos.length + 1) =
      seqIdx seqWitnessPl (m + 1))) :=
  ⟨⟨by decide, by decide⟩, sequential_cycle seqWitnessPl (by decide) (by decide)⟩

/-- C5: for a non-empty playlist whose cursor is at the last index and whose
loop flag is disabled, sequential `get_next_video` returns `none` and leaves
the playlist (cursor, video list and flags) completely unchanged. -/
theorem sequential_end_without_loop (pl : Playlist) (hne : pl.videos.length ≠ 0)
    (hcur : pl.current_index = pl.videos.length - 1)
    (hloop : pl.loop_enabled = false) :
    SequentialStrategy.get_next_video pl = (none, pl) := by
  unfold SequentialStrategy.get_next_video
  rw [if_neg hne, if_pos ⟨by omega, hloop⟩]

/-- Concrete playlist at the last index without looping, for the C5 witness. -/
def seqEndWitnessPl : Playlist :=
  { videos :=
      [{ file_path := "a.mp4".data, filename := "a.mp4".data, file_size := 10,
         format_extension := ".mp4".data },
       { file_path := "b.mp4".data, filename := "b.mp4".data, file_size := 20,
         format_extension := ".mp4".data }],
    current_index := 1, shuffle_enabled := false, loop_enabled := false }

/-- Witness for the end-of-list theorem (C5) at a concrete playlist. -/
theorem sequential_end_without_loop_witness :
    (seqEndWitnessPl.videos.length ≠ 0 ∧
      seqEndWitnessPl.current_index = seqEndWitnessPl.videos.length - 1 ∧
      seqEndWitnessPl.loop_enabled = false) ∧
    SequentialStrategy.get_next_video seqEndWitnessPl = (none, seqEndWitnessPl) :=
  ⟨⟨by decide, by decide, by decide⟩,
    sequential_end_without_loop seqEndWitnessPl (by decide) (by decide) (by decide)⟩

/-- `playlist_manager.py` `ShuffleStrategy` internal state: the list of
already-played indices in the current pass and the most recently picked
index. -/
structure ShuffleState where
  played_indices : List Nat
  last_index : Option Nat
deriving DecidableEq, Repr

/-- State of a freshly constructed `ShuffleStrategy`. -/
def ShuffleState.init : ShuffleState := ⟨[], none⟩

/-- The `available_indices` comprehension of
`ShuffleStrategy.get_next_video`: indices of the playlist not yet played. -/
def availableIndices (n : Nat) (played : List Nat) : List Nat :=
  (List.range n).filter (fun i => ! played.contains i)

/-- The candidate pool of `ShuffleStrategy.get_next_video` in
`playlist_manager.py`: the played list is cleared when a full pass has
completed, the unplayed indices form the pool, and the previous pick is
removed from the pool when at least one other candidate exists. -/
def shufflePool (n : Nat) (pi : List Nat) (li : Option Nat) : List Nat :=
  let played := if pi.length ≥ n then ([] : List Nat) else pi
  let avail := availableIndices n played
  match li with
  | some l => if avail.contains l ∧ avail.length > 1 then avail.erase l else avail
  | none => avail

/-- The selection part of `ShuffleStrategy.get_next_video`: draw from the
candidate pool, record the pick in the played list and as last pick, and
move the playlist cursor.  `random.choice` is modelled by the arbitrary
natural `r` reduced modulo the pool size: every concrete run of the Python
code corresponds to some choice of `r`. -/
def shuffleDraw (r : Nat) (p : Playlist) (pi : List Nat) (li : Option Nat) :
    Option VideoInfo × Playlist × ShuffleState :=
  let played := if pi.length ≥ p.videos.length then ([] : List Nat) else pi
  let pool := shufflePool p.videos.length pi li
  if h : pool.length = 0 then (none, p, ⟨played, li⟩)
  else
    let sel := pool.get ⟨r % pool.length, Nat.mod_lt _ (Nat.pos_of_ne_zero h)⟩
    (p.videos[sel]?, { p with current_index := sel }, ⟨played ++ [sel], some sel⟩)

/-- `playlist_manager.py` `ShuffleStrategy.get_next_video`: empty playlist
gives nothing; a singleton playlist always returns its only video; a
completed pass without looping gives nothing; otherwise draw from the pool. -/
def ShuffleStrategy.get_next_video (r : Nat) (pl : Playlist) (st : ShuffleState) :
    Option VideoInfo × Playlist × ShuffleState :=
  if pl.videos.length = 0 then (none, pl, st)
  else if pl.videos.length = 1 then (pl.videos[0]?, { pl with current_index := 0 }, st)
  else if st.played_indices.length ≥ pl.videos.length ∧ pl.loop_enabled = false then
    (none, pl, st)
  else shuffleDraw r pl st.played_indices st.last_index

/-- `playlist_manager.py` `ShuffleStrategy.reset`. -/
def ShuffleStrategy.reset (pl : Playlist) : Playlist × ShuffleState :=
  ({ pl with current_index := 0 }, ShuffleState.init)

/-- Playlist and strategy state after `m` shuffle calls, the `j`-th call
drawing random value `pick j`, starting from a fresh strategy. -/
def shuffleRun (pick : Nat → Nat) (pl : Playlist) : Nat → Playlist × ShuffleState
  | 0 => (pl, ShuffleState.init)
  | m + 1 =>
    let s := shuffleRun pick pl m
    ((ShuffleStrategy.get_next_video (pick m) s.1 s.2).2.1,
     (ShuffleStrategy.get_next_video (pick m) s.1 s.2).2.2)

/-- Index selected by the `(m+1)`-th shuffle call (read off the cursor). -/
def shuffleSel (pick : Nat → Nat) (pl : Playlist) (m : Nat) : Nat :=
  (shuffleRun pick pl (m + 1)).1.current_index

/-- Value returned by the `(m+1)`-th shuffle call. -/
def shuffleOut (pick : Nat → Nat) (pl : Playlist) (m : Nat) : Option VideoInfo :=
  (ShuffleStrategy.get_next_video (pick m) (shuffleRun pick pl m).1
    (shuffleRun pick pl m).2).1

theorem mem_availableIndices (n : Nat) (played : List Nat) (i : Nat) :
    i ∈ availableIndices n played ↔ i < n ∧ i ∉ played := by
  simp [availableIndices, List.mem_filter, List.mem_range]

theorem nodup_availableIndices (n : Nat) (played : List Nat) :
    (availableIndices n played).Nodup :=
  List.Nodup.filter _ (List.nodup_range n)

theorem availableIndices_ne_nil (n : Nat) (played : List Nat)
    (hlen : played.length < n) :
    availableIndices n played ≠ [] := by
  intro hempty
  have hall : ∀ i, i < n → i ∈ played := by
    intro i hi
    by_contra hmem
    have : i ∈ availableIndices n played := (mem_availableIndices n played i).mpr ⟨hi, hmem⟩
    rw [hempty] at this
    exact absurd this (List.not_mem_nil i)
  have hsub : List.range n ⊆ played := by
    intro i hi
    exact hall i (List.mem_range.mp hi)
  have := (List.subperm_of_subset (List.nodup_range n) hsub).length_le
  rw [List.length_range] at this
  omega

theorem availableIndices_nil_played (n : Nat) :
    availableIndices n [] = List.range n := by
  apply List.filter_eq_self.mpr
  intro a _
  rfl

/-- Invariant of the shuffle state between calls: the played list has no
duplicates, holds only in-range indices, is never longer than the playlist,
and the last-picked index (when set) is an in-range member of the played
list. -/
def ShuffleInv (n : Nat) (st : ShuffleState) : Prop :=
  st.played_indices.Nodup ∧ (∀ i ∈ st.played_indices, i < n) ∧
  st.played_indices.length ≤ n ∧
  ((st.last_index = none ∧ st.played_indices = []) ∨
   (∃ l, st.last_index = some l ∧ l < n ∧ l ∈ st.played_indices))

theorem shuffleInv_init (n : Nat) : ShuffleInv n ShuffleState.init :=
  ⟨List.nodup_nil, by intro i h; exact absurd h (List.not_mem_nil i), by simp [ShuffleState.init], Or.inl ⟨rfl, rfl⟩⟩


/-- The index drawn from a non-empty candidate pool. -/
def poolSel (r n : Nat) (pi : List Nat) (li : Option Nat)
    (h0 : ¬ (shufflePool n pi li).length = 0) : Nat :=
  (shufflePool n pi li).get
    ⟨r % (shufflePool n pi li).length, Nat.mod_lt _ (Nat.pos_of_ne_zero h0)⟩

theorem poolSel_mem (r n : Nat) (pi : List Nat) (li : Option Nat)
    (h0 : ¬ (shufflePool n pi li).length = 0) :
    poolSel r n pi li h0 ∈ shufflePool n pi li :=
  List.get_mem _ _ _

theorem shufflePool_some_restate (n : Nat) (pi : List Nat) (l : Nat) :
    shufflePool n pi (some l) =
      (if (availableIndices n (if pi.length ≥ n then [] else pi)).contains l = true ∧
          (availableIndices n (if pi.length ≥ n then [] else pi)).length > 1 then
        (availableIndices n (if pi.length ≥ n then [] else pi)).erase l
      else availableIndices n (if pi.length ≥ n then [] else pi)) := rfl

theorem shufflePool_subset (n : Nat) (pi : List Nat) (li : Option Nat) :
    ∀ x ∈ shufflePool n pi li,
      x ∈ availableIndices n (if pi.length ≥ n then [] else pi) := by
  cases li with
  | none => intro x hx; exact hx
  | some l =>
    intro x hx
    rw [shufflePool_some_restate] at hx
    by_cases hc : ((availableIndices n (if pi.length ≥ n then [] else pi)).contains l = true ∧
        (availableIndices n (if pi.length ≥ n then [] else pi)).length > 1)
    · rw [if_pos hc] at hx
      exact List.erase_subset _ _ hx
    · rw [if_neg hc] at hx
      exact hx

theorem shufflePool_length_ne (n : Nat) (pi : List Nat) (li : Option Nat)
    (hn : 1 < n) (hlen : pi.length ≤ n) :
    (shufflePool n pi li).length ≠ 0 := by
  have hplen : (if pi.length ≥ n then ([] : List Nat) else pi).length < n := by
    split
    · simp only [List.length_nil]; omega
    · next h => omega
  have hane : availableIndices n (if pi.length ≥ n then ([] : List Nat) else pi) ≠ [] :=
    availableIndices_ne_nil _ _ hplen
  have hane' : (availableIndices n (if pi.length ≥ n then ([] : List Nat) else pi)).length ≠ 0 := by
    simpa [List.length_eq_zero] using hane
  cases li with
  | none => exact hane'
  | some l =>
    rw [shufflePool_some_restate]
    by_cases hc : ((availableIndices n (if pi.length ≥ n then [] else pi)).contains l = true ∧
        (availableIndices n (if pi.length ≥ n then [] else pi)).length > 1)
    · rw [if_pos hc, List.length_erase_of_mem (by simpa using hc.1)]
      have := hc.2
      omega
    · rw [if_neg hc]
      exact hane'

theorem shufflePool_ne_last (n : Nat) (pi : List Nat) (l : Nat)
    (hn : 1 < n) (hlt : l < n) (hmem : l ∈ pi) :
    ∀ x ∈ shufflePool n pi (some l), x ≠ l := by
  intro x hx
  rw [shufflePool_some_restate] at hx
  by_cases hc : ((availableIndices n (if pi.length ≥ n then [] else pi)).contains l = true ∧
      (availableIndices n (if pi.length ≥ n then [] else pi)).length > 1)
  · rw [if_pos hc] at hx
    exact ((nodup_availableIndices _ _).mem_erase_iff.mp hx).1
  · rw [if_neg hc] at hx
    by_cases hclear : pi.length ≥ n
    · -- after a completed pass the pool is the full index range, which has
      -- more than one element, so the erase condition must have held
      exfalso
      apply hc
      constructor
      · have hl : l ∈ availableIndices n (if pi.length ≥ n then ([] : List Nat) else pi) := by
          apply (mem_availableIndices _ _ _).mpr
          refine ⟨hlt, ?_⟩
          rw [if_pos hclear]
          exact List.not_mem_nil l
        simpa using hl
      · rw [if_pos hclear, availableIndices_nil_played, List.length_range]
        omega
    · -- mid-pass: the previous pick is still among the played indices and
      -- the pool avoids all of them
      intro heq
      have hxpi : x ∈ (if pi.length ≥ n then ([] : List Nat) else pi) := by
        rw [if_neg hclear, heq]
        exact hmem
      exact ((mem_availableIndices _ _ _).mp hx).2 hxpi

theorem shuffleDraw_eq (r : Nat) (p : Playlist) (pi : List Nat) (li : Option Nat)
    (h0 : ¬ (shufflePool p.videos.length pi li).length = 0) :
    shuffleDraw r p pi li =
      (p.videos[poolSel r p.videos.length pi li h0]?,
       { p with current_index := poolSel r p.videos.length pi li h0 },
       ⟨(if pi.length ≥ p.videos.length then [] else pi) ++ [poolSel r p.videos.length pi li h0],
        some (poolSel r p.videos.length pi li h0)⟩) := by
  unfold shuffleDraw poolSel
  rw [dif_neg h0]

/-- One shuffle call on a reachable state of a looping playlist with at
least two videos always selects a fresh in-range index distinct from the
previous pick, and appends it to the (possibly cleared) played list. -/
theorem shuffle_step (p : Playlist) (pi : List Nat) (li : Option Nat) (r : Nat)
    (hn : 1 < p.videos.length) (hloop : p.loop_enabled = true)
    (hlen : pi.length ≤ p.videos.length)
    (hlast : (li = none ∧ pi = []) ∨
      (∃ l, li = some l ∧ l < p.videos.length ∧ l ∈ pi)) :
    ∃ sel,
      ShuffleStrategy.get_next_video r p ⟨pi, li⟩ =
        (p.videos[sel]?, { p with current_index := sel },
         ⟨(if pi.length ≥ p.videos.length then [] else pi) ++ [sel], some sel⟩) ∧
      sel < p.videos.length ∧
      sel ∉ (if pi.length ≥ p.videos.length then ([] : List Nat) else pi) ∧
      (∀ l, li = some l → sel ≠ l) := by
  have hn0 : ¬ p.videos.length = 0 := by omega
  have hn1 : ¬ p.videos.length = 1 := by omega
  have hnl : ¬ (pi.length ≥ p.videos.length ∧ p.loop_enabled = false) := by
    intro hx
    rw [hloop] at hx
    simp at hx
  have h0 : ¬ (shufflePool p.videos.length pi li).length = 0 :=
    shufflePool_length_ne p.videos.length pi li hn hlen
  have hm := poolSel_mem r p.videos.length pi li h0
  have hma := shufflePool_subset _ _ _ _ hm
  refine ⟨poolSel r p.videos.length pi li h0, ?_, ?_, ?_, ?_⟩
  · show ShuffleStrategy.get_next_video r p ⟨pi, li⟩ = _
    unfold ShuffleStrategy.get_next_video
    dsimp only
    rw [if_neg hn0, if_neg hn1, if_neg hnl]
    exact shuffleDraw_eq r p pi li h0
  · exact ((mem_availableIndices _ _ _).mp hma).1
  · exact ((mem_availableIndices _ _ _).mp hma).2
  · intro l hl
    subst hl
    have hlast2 : l < p.videos.length ∧ l ∈ pi := by
      rcases hlast with ⟨h1, _⟩ | ⟨l2, hsome, hltx, hmemx⟩
      · exact absurd h1 (by simp)
      · injection hsome with hx
        subst hx
        exact ⟨hltx, hmemx⟩
    exact shufflePool_ne_last _ _ _ hn hlast2.1 hlast2.2 _ hm

/-- The played list after `m + 1` shuffle calls: the selections made since
the start of the current pass (block of length `len videos`). -/
def blockList (pick : Nat → Nat) (pl : Playlist) (m : Nat) : List Nat :=
  (List.range' (pl.videos.length * (m / pl.videos.length))
    (m % pl.videos.length + 1)).map (shuffleSel pick pl)

/-- Full characterization of a shuffle run on a looping playlist with at
least two videos: after `m + 1` calls the cursor holds the `m`-th selection,
the played list is exactly the block of selections of the current pass (with
no duplicates, all in range), each call returns the video at its selection,
and consecutive selections differ. -/
theorem shuffle_run_char (pick : Nat → Nat) (pl : Playlist)
    (hn : 1 < pl.videos.length) (hloop : pl.loop_enabled = true) :
    ∀ m,
      (shuffleRun pick pl (m + 1)).1 = { pl with current_index := shuffleSel pick pl m } ∧
      (shuffleRun pick pl (m + 1)).2 =
        ⟨blockList pick pl m, some (shuffleSel pick pl m)⟩ ∧
      (blockList pick pl m).Nodup ∧
      (∀ i ∈ blockList pick pl m, i < pl.videos.length) ∧
      shuffleOut pick pl m = pl.videos[shuffleSel pick pl m]? ∧
      (m = 0 ∨ shuffleSel pick pl m ≠ shuffleSel pick pl (m - 1)) := by
  intro m
  induction m with
  | zero =>
    obtain ⟨sel, heq, hlt, hnm, hne⟩ :=
      shuffle_step pl [] none (pick 0) hn hloop (by simp) (Or.inl ⟨rfl, rfl⟩)
    have h1 : shuffleRun pick pl 1 = ({ pl with current_index := sel }, ⟨[sel], some sel⟩) := by
      show ((ShuffleStrategy.get_next_video (pick 0) pl ⟨[], none⟩).2.1,
        (ShuffleStrategy.get_next_video (pick 0) pl ⟨[], none⟩).2.2) = _
      rw [heq]
      simp
    have hsel : shuffleSel pick pl 0 = sel := by
      show (shuffleRun pick pl 1).1.current_index = sel
      rw [h1]
    have hblock : blockList pick pl 0 = [shuffleSel pick pl 0] := by
      simp [blockList]
    refine ⟨?_, ?_, ?_, ?_, ?_, Or.inl rfl⟩
    · rw [show shuffleRun pick pl (0 + 1) = shuffleRun pick pl 1 from rfl, h1, hsel]
    · rw [show shuffleRun pick pl (0 + 1) = shuffleRun pick pl 1 from rfl, h1, hblock, hsel]
    · rw [hblock]; exact List.nodup_singleton _
    · intro i hi
      rw [hblock] at hi
      rcases List.mem_singleton.mp hi with h
      rw [h, hsel]; exact hlt
    · show (ShuffleStrategy.get_next_video (pick 0) (shuffleRun pick pl 0).1
        (shuffleRun pick pl 0).2).1 = _
      rw [show (shuffleRun pick pl 0).1 = pl from rfl,
        show (shuffleRun pick pl 0).2 = (⟨[], none⟩ : ShuffleState) from rfl, heq, hsel]
  | succ m ih =>
    obtain ⟨ih1, ih2, ih3, ih4, ih5, _⟩ := ih
    have hdm := Nat.div_add_mod m pl.videos.length
    have hPlen : (blockList pick pl m).length = m % pl.videos.length + 1 := by
      simp [blockList, List.length_range']
    have hmlt : m % pl.videos.length < pl.videos.length := Nat.mod_lt m (by omega)
    have hsmem : shuffleSel pick pl m ∈ blockList pick pl m := by
      apply List.mem_map.mpr
      exact ⟨m, by rw [List.mem_range'_1]; omega, rfl⟩
    have hslt : shuffleSel pick pl m < pl.videos.length := ih4 _ hsmem
    obtain ⟨sel, heq, hlt, hnm, hne⟩ :=
      shuffle_step { pl with current_index := shuffleSel pick pl m }
        (blockList pick pl m) (some (shuffleSel pick pl m)) (pick (m + 1)) hn hloop
        (by show (blockList pick pl m).length ≤ pl.videos.length; rw [hPlen]; omega)
        (Or.inr ⟨shuffleSel pick pl m, rfl, hslt, hsmem⟩)
    have h2 : shuffleRun pick pl (m + 2) =
        ({ pl with current_index := sel },
         ⟨(if (blockList pick pl m).length ≥ pl.videos.length then []
           else blockList pick pl m) ++ [sel], some sel⟩) := by
      show ((ShuffleStrategy.get_next_video (pick (m + 1)) (shuffleRun pick pl (m + 1)).1
          (shuffleRun pick pl (m + 1)).2).2.1,
        (ShuffleStrategy.get_next_video (pick (m + 1)) (shuffleRun pick pl (m + 1)).1
          (shuffleRun pick pl (m + 1)).2).2.2) = _
      rw [ih1, ih2, heq]
    have hsel2 : shuffleSel pick pl (m + 1) = sel := by
      show (shuffleRun pick pl (m + 2)).1.current_index = sel
      rw [h2]
    have hblock2 : blockList pick pl (m + 1) =
        (if (blockList pick pl m).length ≥ pl.videos.length then []
         else blockList pick pl m) ++ [sel] := by
      by_cases hcase : m % pl.videos.length + 1 = pl.videos.length
      · have hiff : (blockList pick pl m).length ≥ pl.videos.length := by
          rw [hPlen]; omega
        rw [if_pos hiff]
        have h3 : pl.videos.length * (m / pl.videos.length + 1) =
            pl.videos.length * (m / pl.videos.length) + pl.videos.length := by ring
        have h4 : m + 1 = pl.videos.length * (m / pl.videos.length + 1) := by omega
        unfold blockList
        rw [show (m + 1) % pl.videos.length = 0 by rw [h4, Nat.mul_mod_right],
          show (m + 1) / pl.videos.length = m / pl.videos.length + 1 by
            rw [h4, Nat.mul_div_cancel_left _ (by omega : 0 < pl.videos.length)]]
        rw [← h4]
        show [shuffleSel pick pl (m + 1)] = [sel]
        rw [hsel2]
      · have hlt2 : m % pl.videos.length + 1 < pl.videos.length := by omega
        have hiff : ¬ (blockList pick pl m).length ≥ pl.videos.length := by
          rw [hPlen]; omega
        rw [if_neg hiff]
        have h4 : m + 1 = (m % pl.videos.length + 1) +
            pl.videos.length * (m / pl.videos.length) := by omega
        unfold blockList
        rw [show (m + 1) % pl.videos.length = m % pl.videos.length + 1 by
            rw [h4, Nat.add_mul_mod_self_left, Nat.mod_eq_of_lt hlt2],
          show (m + 1) / pl.videos.length = m / pl.videos.length by
            rw [h4, Nat.add_mul_div_left _ _ (by omega : 0 < pl.videos.length),
              Nat.div_eq_of_lt hlt2]
            omega]
        rw [List.range'_1_concat, List.map_append]
        congr 1
        show [shuffleSel pick pl (pl.videos.length * (m / pl.videos.length) +
          (m % pl.videos.length + 1))] = [sel]
        rw [show pl.videos.length * (m / pl.videos.length) +
          (m % pl.videos.length + 1) = m + 1 by omega, hsel2]
    refine ⟨?_, ?_, ?_, ?_, ?_, ?_⟩
    · rw [show m + 1 + 1 = m + 2 from rfl, h2, hsel2]
    · rw [show m + 1 + 1 = m + 2 from rfl, h2, hblock2, hsel2]
    · rw [hblock2]
      by_cases hcase : (blockList pick pl m).length ≥ pl.videos.length
      · rw [if_pos hcase]
        exact List.nodup_singleton _
      · rw [if_neg hcase]
        rw [List.nodup_append]
        refine ⟨ih3, List.nodup_singleton _, ?_⟩
        intro a ha hb
        rw [List.mem_singleton.mp hb] at ha
        rw [if_neg hcase] at hnm
        exact hnm ha
    · intro i hi
      rw [hblock2] at hi
      rcases List.mem_append.mp hi with h | h
      · split at h
        · exact absurd h (List.not_mem_nil i)
        · exact ih4 _ h
      · rw [List.mem_singleton.mp h]
        exact hlt
    · show (ShuffleStrategy.get_next_video (pick (m + 1)) (shuffleRun pick pl (m + 1)).1
        (shuffleRun pick pl (m + 1)).2).1 = _
      rw [ih1, ih2, heq, hsel2]
    · refine Or.inr ?_
      rw [hsel2]
      show sel ≠ shuffleSel pick pl (m + 1 - 1)
      exact hne _ rfl

theorem shuffleSel_lt (pick : Nat → Nat) (pl : Playlist)
    (hn : 1 < pl.videos.length) (hloop : pl.loop_enabled = true) (m : Nat) :
    shuffleSel pick pl m < pl.videos.length := by
  obtain ⟨_, _, _, h4, _, _⟩ := shuffle_run_char pick pl hn hloop m
  apply h4
  apply List.mem_map.mpr
  refine ⟨m, ?_, rfl⟩
  rw [List.mem_range'_1]
  have h1 := Nat.div_add_mod m pl.videos.length
  have h2 := Nat.mod_lt m (show 0 < pl.videos.length by omega)
  omega

theorem shuffleSel_block_ne (pick : Nat → Nat) (pl : Playlist)
    (hn : 1 < pl.videos.length) (hloop : pl.loop_enabled = true) :
    ∀ i j, i / pl.videos.length = j / pl.videos.length → i ≠ j →
      shuffleSel pick pl i ≠ shuffleSel pick pl j := by
  have key : ∀ i j, i / pl.videos.length = j / pl.videos.length → i < j →
      shuffleSel pick pl i ≠ shuffleSel pick pl j := by
    intro i j hij hlt heq
    obtain ⟨_, _, h3, _, _, _⟩ := shuffle_run_char pick pl hn hloop j
    unfold blockList at h3
    have hdi := Nat.div_add_mod i pl.videos.length
    have hdj := Nat.div_add_mod j pl.videos.length
    rw [hij] at hdi
    have hi : i ∈ List.range' (pl.videos.length * (j / pl.videos.length))
        (j % pl.videos.length + 1) := by
      rw [List.mem_range'_1]; omega
    have hj : j ∈ List.range' (pl.videos.length * (j / pl.videos.length))
        (j % pl.videos.length + 1) := by
      rw [List.mem_range'_1]
      have := Nat.mod_lt j (show 0 < pl.videos.length by omega)
      omega
    exact absurd (List.inj_on_of_nodup_map h3 hi hj heq) (by omega)
  intro i j hij hne
  rcases Nat.lt_or_ge i j with h | h
  · exact key i j hij h
  · have : j < i := by omega
    exact (key j i hij.symm this).symm

theorem get_next_video_preserves_videos (r : Nat) (pl : Playlist) (st : ShuffleState) :
    ((ShuffleStrategy.get_next_video r pl st).2.1).videos = pl.videos := by
  unfold ShuffleStrategy.get_next_video shuffleDraw
  dsimp only
  split
  · rfl
  split
  · rfl
  split
  · rfl
  split
  · rfl
  · rfl

theorem shuffle_singleton_out (pk : Nat → Nat) (q : Playlist)
    (h1 : q.videos.length = 1) (m : Nat) :
    shuffleOut pk q m = q.videos[0]? := by
  have hv : (shuffleRun pk q m).1.videos = q.videos := by
    induction m with
    | zero => rfl
    | succ k ih =>
      show ((ShuffleStrategy.get_next_video (pk k) (shuffleRun pk q k).1
        (shuffleRun pk q k).2).2.1).videos = _
      rw [get_next_video_preserves_videos, ih]
  show (ShuffleStrategy.get_next_video (pk m) (shuffleRun pk q m).1
    (shuffleRun pk q m).2).1 = _
  unfold ShuffleStrategy.get_next_video
  rw [if_neg (by rw [hv, h1]; omega), if_pos (by rw [hv]; exact h1)]
  show (shuffleRun pk q m).1.videos[0]? = q.videos[0]?
  rw [hv]

/-- C3: on a looping playlist of `N > 1` distinct videos, for every sequence
of random draws, shuffle `get_next_video` never returns the same entry twice
within one pass of length `N` (calls with the same index quotient by `N`),
and never returns on one call the entry returned by the immediately
preceding call; on playlists with exactly one entry every call returns that
entry, so an immediate repeat does occur there. -/
theorem shuffle_no_immediate_repeat (pl : Playlist) (pick : Nat → Nat)
    (hn : 1 < pl.videos.length) (hloop : pl.loop_enabled = true)
    (hnd : pl.videos.Nodup) :
    (∀ i j, i / pl.videos.length = j / pl.videos.length → i ≠ j →
      shuffleOut pick pl i ≠ shuffleOut pick pl j) ∧
    (∀ m, shuffleOut pick pl (m + 1) ≠ shuffleOut pick pl m) ∧
    (∀ (q : Playlist) (pk : Nat → Nat), q.videos.length = 1 →
      ∀ m, shuffleOut pk q (m + 1) = shuffleOut pk q m) := by
  have hout : ∀ k, shuffleOut pick pl k = pl.videos[shuffleSel pick pl k]? := by
    intro k
    obtain ⟨_, _, _, _, h5, _⟩ := shuffle_run_char pick pl hn hloop k
    exact h5
  have houtne : ∀ i j, shuffleSel pick pl i ≠ shuffleSel pick pl j →
      shuffleOut pick pl i ≠ shuffleOut pick pl j := by
    intro i j hne
    rw [hout i, hout j,
      List.getElem?_eq_getElem (shuffleSel_lt pick pl hn hloop i),
      List.getElem?_eq_getElem (shuffleSel_lt pick pl hn hloop j)]
    intro hsome
    have := hnd.getElem_inj_iff.mp (Option.some.inj hsome)
    exact hne this
  refine ⟨?_, ?_, ?_⟩
  · intro i j hij hne
    exact houtne i j (shuffleSel_block_ne pick pl hn hloop i j hij hne)
  · intro m
    apply houtne
    obtain ⟨_, _, _, _, _, h6⟩ := shuffle_run_char pick pl hn hloop (m + 1)
    rcases h6 with h | h
    · exact absurd h (by omega)
    · exact h
  · intro q pk h1 m
    rw [shuffle_singleton_out pk q h1, shuffle_singleton_out pk q h1]

/-- Concrete two-video looping playlist used to witness the shuffle theorem. -/
def shuffleWitnessPl : Playlist :=
  { videos :=
      [{ file_path := "a.mp4".data, filename := "a.mp4".data, file_size := 10,
         format_extension := ".mp4".data },
       { file_path := "b.mp4".data, filename := "b.mp4".data, file_size := 20,
         format_extension := ".mp4".data }],
    current_index := 0, shuffle_enabled := true, loop_enabled := true }

/-- Witness for the shuffle no-repeat theorem (C3) at a concrete playlist
and a concrete random sequence. -/
theorem shuffle_no_immediate_repeat_witness :
    (1 < shuffleWitnessPl.videos.length ∧ shuffleWitnessPl.loop_enabled = true ∧
      shuffleWitnessPl.videos.Nodup) ∧
    ((∀ i j, i / shuffleWitnessPl.videos.length = j / shuffleWitnessPl.videos.length →
      i ≠ j → shuffleOut (fun _ => 0) shuffleWitnessPl i ≠ shuffleOut (fun _ => 0) shuffleWitnessPl j) ∧
    (∀ m, shuffleOut (fun _ => 0) shuffleWitnessPl (m + 1) ≠
      shuffleOut (fun _ => 0) shuffleWitnessPl m) ∧
    (∀ (q : Playlist) (pk : Nat → Nat), q.videos.length = 1 →
      ∀ m, shuffleOut pk q (m + 1) = shuffleOut pk q m)) :=
  ⟨⟨by decide, by decide, by decide⟩,
    shuffle_no_immediate_repeat shuffleWitnessPl (fun _ => 0) (by decide) (by decide) (by decide)⟩

/-- Error counters of `main.py` `SignageSystem`: the cumulative
`_error_count` and the consecutive `_consecutive_errors`. -/
structure SignageErrors where
  error_count : Nat
  consecutive_errors : Nat
deriving DecidableEq, Repr

/-- `main.py` `SignageSystem._handle_playback_error`: increment both
counters; when the consecutive counter has reached `max_retries`, trigger a
playlist reload (returned flag) and reset the consecutive counter to 0. -/
def handle_playback_error (max_retries : Nat) (s : SignageErrors) : SignageErrors × Bool :=
  let ec := s.error_count + 1
  let ce := s.consecutive_errors + 1
  if ce ≥ max_retries then (⟨ec, 0⟩, true)
  else (⟨ec, ce⟩, false)

/-- Events affecting the counters in the main loop of `main.py`: a playback
failure (handled by `_handle_playback_error`) or a successful playback start
(which resets `_consecutive_errors` to 0). -/
inductive OrchEvent where
  | err
  | success
deriving DecidableEq, Repr

/-- One main-loop event applied to the counters. -/
def orchStep (max_retries : Nat) (s : SignageErrors) : OrchEvent → SignageErrors × Bool
  | .err => handle_playback_error max_retries s
  | .success => ({ s with consecutive_errors := 0 }, false)

/-- Counters after processing a sequence of main-loop events from state
`s0`. -/
def orchRun (max_retries : Nat) (s0 : SignageErrors) : List OrchEvent → SignageErrors
  | [] => s0
  | e :: es => orchRun max_retries (orchStep max_retries s0 e).1 es

theorem orchRun_consec_lt (max_retries : Nat) :
    ∀ (events : List OrchEvent) (s0 : SignageErrors),
      s0.consecutive_errors < max_retries →
      (orchRun max_retries s0 events).consecutive_errors < max_retries := by
  intro events
  induction events with
  | nil => intro s0 h; exact h
  | cons e es ih =>
    intro s0 h
    apply ih
    cases e with
    | err =>
      show (handle_playback_error max_retries s0).1.consecutive_errors < max_retries
      unfold handle_playback_error
      dsimp only
      split
      · next hc => dsimp only; omega
      · next hc => dsimp only; omega
    | success =>
      show ({ s0 with consecutive_errors := 0 } : SignageErrors).consecutive_errors < max_retries
      dsimp only
      omega

theorem orchRun_error_count (max_retries : Nat) :
    ∀ (events : List OrchEvent) (s0 : SignageErrors),
      (orchRun max_retries s0 events).error_count =
        s0.error_count + events.count OrchEvent.err := by
  intro events
  induction events with
  | nil => intro s0; simp [orchRun]
  | cons e es ih =>
    intro s0
    show (orchRun max_retries (orchStep max_retries s0 e).1 es).error_count = _
    rw [ih]
    cases e with
    | err =>
      show (handle_playback_error max_retries s0).1.error_count + es.count OrchEvent.err = _
      have hec : (handle_playback_error max_retries s0).1.error_count = s0.error_count + 1 := by
        unfold handle_playback_error
        dsimp only
        split <;> rfl
      rw [hec, List.count_cons]
      simp
      omega
    | success =>
      rw [List.count_cons]
      simp [orchStep]

/-- C2: each playback failure increments both counters; a reload fires
exactly when the incremented consecutive counter has reached `max_retries`,
and then the consecutive counter is reset to exactly 0, otherwise it holds
the incremented value.  On every state reachable from a fresh system the
consecutive counter stays strictly below `max_retries` (so it reaches
`max_retries` only transiently, at the very call that fires the reload),
while the cumulative counter equals the total number of failures ever
handled and is never reset. -/
theorem playback_error_policy (max_retries : Nat) (hmax : 1 ≤ max_retries) :
    (∀ s : SignageErrors,
      (handle_playback_error max_retries s).1.error_count = s.error_count + 1 ∧
      ((handle_playback_error max_retries s).2 = true ↔
        s.consecutive_errors + 1 ≥ max_retries) ∧
      ((handle_playback_error max_retries s).2 = true →
        (handle_playback_error max_retries s).1.consecutive_errors = 0) ∧
      ((handle_playback_error max_retries s).2 = false →
        (handle_playback_error max_retries s).1.consecutive_errors =
          s.consecutive_errors + 1)) ∧
    (∀ events : List OrchEvent,
      (orchRun max_retries ⟨0, 0⟩ events).consecutive_errors < max_retries ∧
      ((handle_playback_error max_retries (orchRun max_retries ⟨0, 0⟩ events)).2 = true ↔
        (orchRun max_retries ⟨0, 0⟩ events).consecutive_errors + 1 = max_retries)) ∧
    (∀ events : List OrchEvent,
      (orchRun max_retries ⟨0, 0⟩ events).error_count =
        events.count OrchEvent.err) := by
  have hstep : ∀ s : SignageErrors,
      (handle_playback_error max_retries s).1.error_count = s.error_count + 1 ∧
      ((handle_playback_error max_retries s).2 = true ↔
        s.consecutive_errors + 1 ≥ max_retries) ∧
      ((handle_playback_error max_retries s).2 = true →
        (handle_playback_error max_retries s).1.consecutive_errors = 0) ∧
      ((handle_playback_error max_retries s).2 = false →
        (handle_playback_error max_retries s).1.consecutive_errors =
          s.consecutive_errors + 1) := by
    intro s
    unfold handle_playback_error
    dsimp only
    split
    · next hc => exact ⟨rfl, ⟨fun _ => hc, fun _ => rfl⟩, fun _ => rfl, by simp⟩
    · next hc =>
      exact ⟨rfl, by simp [hc], by simp, fun _ => rfl⟩
  refine ⟨hstep, ?_, ?_⟩
  · intro events
    have hlt := orchRun_consec_lt max_retries events ⟨0, 0⟩ (by simpa using by omega)
    refine ⟨hlt, ?_⟩
    rw [(hstep _).2.1]
    omega
  · intro events
    have := orchRun_error_count max_retries events ⟨0, 0⟩
    simpa using this

/-- Witness for the error-counter policy theorem (C2): `max_retries = 3`,
as in the default configuration. -/
theorem playback_error_policy_witness :
    1 ≤ 3 ∧
    ((∀ s : SignageErrors,
      (handle_playback_error 3 s).1.error_count = s.error_count + 1 ∧
      ((handle_playback_error 3 s).2 = true ↔ s.consecutive_errors + 1 ≥ 3) ∧
      ((handle_playback_error 3 s).2 = true →
        (handle_playback_error 3 s).1.consecutive_errors = 0) ∧
      ((handle_playback_error 3 s).2 = false →
        (handle_playback_error 3 s).1.consecutive_errors = s.consecutive_errors + 1)) ∧
    (∀ events : List OrchEvent,
      (orchRun 3 ⟨0, 0⟩ events).consecutive_errors < 3 ∧
      ((handle_playback_error 3 (orchRun 3 ⟨0, 0⟩ events)).2 = true ↔
        (orchRun 3 ⟨0, 0⟩ events).consecutive_errors + 1 = 3)) ∧
    (∀ events : List OrchEvent,
      (orchRun 3 ⟨0, 0⟩ events).error_count = events.count OrchEvent.err)) :=
  ⟨by decide, playback_error_policy 3 (by decide)⟩

/-- Abstracted state of `main.py` `SignageSystem`: the running flag, both
error counters, and the components touched by initialization (playlist
manager content, scanner cache, player state). -/
structure SignageState where
  running : Bool
  error_count : Nat
  consecutive_errors : Nat
  playlist_mgr : Option Playlist
  scanner_cache : Option (List Str)
  player_video : Option Str
deriving DecidableEq, Repr

/-- Observable side effects of one `start()` call: whether component
initialization ran and whether a main-loop thread was started. -/
structure StartEffects where
  ranInit : Bool
  startedThread : Bool
deriving DecidableEq, Repr

/-- `main.py` `SignageSystem.start`: an already-running system returns
success immediately; otherwise `initialize()` (modelled by the parameter
`doInit`, which may rebuild the components) runs, and on success the running
flag is set and the main-loop thread started. -/
def SignageSystem.start (doInit : SignageState → SignageState × Bool)
    (s : SignageState) : SignageState × Bool × StartEffects :=
  if s.running = true then (s, true, ⟨false, false⟩)
  else
    let r := doInit s
    if r.2 = false then (r.1, false, ⟨true, false⟩)
    else ({ r.1 with running := true }, true, ⟨true, true⟩)

/-- C10: calling `start()` on a system that is already running returns
success immediately and is a complete no-op: the state (error counters,
playlist manager, scanner cache, player state, running flag) is unchanged,
initialization does not run again and no second main-loop thread is
started — regardless of what initialization would do. -/
theorem start_when_already_running (doInit : SignageState → SignageState × Bool)
    (s : SignageState) (h : s.running = true) :
    SignageSystem.start doInit s = (s, true, ⟨false, false⟩) := by
  unfold SignageSystem.start
  rw [if_pos h]

/-- Witness for the idempotent-start theorem (C10) at a concrete running
state and a concrete initializer that would change the state if it ran. -/
theorem start_when_already_running_witness :
    (true = true) ∧
    SignageSystem.start (fun s => ({ s with error_count := 99 }, true))
        ⟨true, 2, 1, none, none, none⟩ =
      (⟨true, 2, 1, none, none, none⟩, true, ⟨false, false⟩) :=
  ⟨rfl, start_when_already_running (fun s => ({ s with error_count := 99 }, true))
    ⟨true, 2, 1, none, none, none⟩ rfl⟩

/-- The two playback-strategy variants of `playlist_manager.py`. -/
inductive StrategyKind where
  | sequential
  | shuffle
deriving DecidableEq, Repr

/-- `playlist_manager.py` `PlaylistManager`: the playlist, the persistent
`ShuffleStrategy` instance's internal state, and which strategy is
current. -/
structure PlaylistManager where
  playlist : Playlist
  shuffle_state : ShuffleState
  current_strategy : StrategyKind
deriving DecidableEq, Repr

/-- `playlist_manager.py` `PlaylistManager.remove_video`: find the first
playlist entry whose path equals the given path; shift the cursor down by
one if the entry sat below it, reset the cursor to 0 if it was the current
entry, remove the entry and report success; report failure when the path is
not present. -/
def remove_video (video_path : Str) (m : PlaylistManager) : Bool × PlaylistManager :=
  match m.playlist.videos.findIdx? (fun v => v.file_path == video_path) with
  | none => (false, m)
  | some i =>
    let cur := m.playlist.current_index
    let cur2 := if i < cur then cur - 1 else if i = cur then 0 else cur
    (true, { m with playlist := { m.playlist with
        videos := m.playlist.videos.eraseIdx i, current_index := cur2 } })

theorem remove_video_returns (q : PlaylistManager) (path : Str) :
    (remove_video path q).1 = true ↔
      path ∈ q.playlist.videos.map VideoInfo.file_path := by
  unfold remove_video
  cases hf : q.playlist.videos.findIdx? (fun v => v.file_path == path) with
  | none =>
    simp only [hf]
    constructor
    · intro h
      exact absurd h (by simp)
    · intro hmem
      rw [List.findIdx?_eq_none_iff] at hf
      obtain ⟨v, hv, hveq⟩ := List.mem_map.mp hmem
      have hfv := hf v hv
      rw [hveq] at hfv
      simp at hfv
  | some i =>
    simp only [hf]
    constructor
    · intro _
      rw [List.findIdx?_eq_some_iff_getElem] at hf
      obtain ⟨h, hp, _⟩ := hf
      apply List.mem_map.mpr
      exact ⟨q.playlist.videos.get ⟨i, h⟩, List.get_mem _ _ _, by simpa using hp⟩
    · intro _
      trivial

/-- C9: removing the unique playlist entry at index `i` whose path matches
shifts the cursor down by one when `i` was strictly below the cursor, resets
it to 0 when the removed entry was the current one, and leaves it unchanged
when `i` was above the cursor, deleting exactly that entry; in general the
call succeeds exactly when the given path occurs in the playlist. -/
theorem remove_video_cursor_rule (m : PlaylistManager) (path : Str) (i : Nat)
    (hi : i < m.playlist.videos.length)
    (hpath : (m.playlist.videos.get ⟨i, hi⟩).file_path = path)
    (huniq : ∀ j (hj : j < m.playlist.videos.length),
      (m.playlist.videos.get ⟨j, hj⟩).file_path = path → j = i) :
    remove_video path m =
      (true, { m with playlist := { m.playlist with
        videos := m.playlist.videos.eraseIdx i,
        current_index :=
          if i < m.playlist.current_index then m.playlist.current_index - 1
          else if i = m.playlist.current_index then 0
          else m.playlist.current_index } }) ∧
    (∀ q : PlaylistManager, (remove_video path q).1 = true ↔
      path ∈ q.playlist.videos.map VideoInfo.file_path) := by
  have hfind : m.playlist.videos.findIdx? (fun v => v.file_path == path) = some i := by
    rw [List.findIdx?_eq_some_iff_getElem]
    refine ⟨hi, by simpa using hpath, ?_⟩
    intro j hji hpj
    have hj : j < m.playlist.videos.length := by omega
    have := huniq j hj (by simpa using hpj)
    omega
  constructor
  · unfold remove_video
    rw [hfind]
  · exact fun q => remove_video_returns q path

/-- Concrete three-video manager used to witness the remove theorem. -/
def removeWitnessMgr : PlaylistManager :=
  { playlist :=
      { videos :=
          [{ file_path := "a.mp4".data, filename := "a.mp4".data, file_size := 1,
             format_extension := ".mp4".data },
           { file_path := "b.mp4".data, filename := "b.mp4".data, file_size := 2,
             format_extension := ".mp4".data },
           { file_path := "c.mp4".data, filename := "c.mp4".data, file_size := 3,
             format_extension := ".mp4".data }],
        current_index := 2, shuffle_enabled := false, loop_enabled := true },
    shuffle_state := ⟨[], none⟩, current_strategy := .sequential }

/-- Witness for the remove-video theorem (C9): removing `b.mp4` (index 1,
below the cursor 2) from a concrete playlist. -/
theorem remove_video_cursor_rule_witness :
    (1 < removeWitnessMgr.playlist.videos.length ∧
      (∀ j (hj : j < removeWitnessMgr.playlist.videos.length),
        (removeWitnessMgr.playlist.videos.get ⟨j, hj⟩).file_path = "b.mp4".data → j = 1)) ∧
    (remove_video "b.mp4".data removeWitnessMgr =
      (true, { removeWitnessMgr with playlist := { removeWitnessMgr.playlist with
        videos := removeWitnessMgr.playlist.videos.eraseIdx 1,
        current_index :=
          if 1 < removeWitnessMgr.playlist.current_index then
            removeWitnessMgr.playlist.current_index - 1
          else if 1 = removeWitnessMgr.playlist.current_index then 0
          else removeWitnessMgr.playlist.current_index } }) ∧
    (∀ q : PlaylistManager, (remove_video "b.mp4".data q).1 = true ↔
      "b.mp4".data ∈ q.playlist.videos.map VideoInfo.file_path)) :=
  ⟨⟨by decide, by decide⟩,
    remove_video_cursor_rule removeWitnessMgr "b.mp4".data 1 (by decide) (by decide) (by decide)⟩

/-- One immediate child of the video directory, as observed by
`Path.iterdir` plus the per-file attributes the code reads: `is_file()`,
`suffix`, `stat().st_size` (with `stat_ok = false` when `stat()` raises
`OSError`), and `exists()` for paths passed to `add_video`. -/
structure FileEntry where
  name : Str
  is_file : Bool
  suffix : Str
  size : Nat
  stat_ok : Bool
  on_disk : Bool
deriving DecidableEq, Repr

/-- A directory: whether it exists and its immediate children. -/
structure Directory where
  present : Bool
  entries : List FileEntry
deriving DecidableEq, Repr

/-- Case-insensitive filename order on videos, as induced by Python's
`videos.sort(key=lambda v: v.filename.lower())`. -/
def videoNameLe (u v : VideoInfo) : Prop :=
  strLeB (lowerStr u.filename) (lowerStr v.filename) = true

instance : DecidableRel videoNameLe := fun _ _ =>
  inferInstanceAs (Decidable (_ = true))

instance : IsTotal VideoInfo videoNameLe :=
  ⟨fun _ _ => strLeB_total _ _⟩

instance : IsTrans VideoInfo videoNameLe :=
  ⟨fun _ _ _ => strLeB_trans _ _ _⟩

/-- Name order on path strings, as induced by Python's `video_files.sort()`. -/
def strLe (a b : Str) : Prop := strLeB a b = true

instance : DecidableRel strLe := fun _ _ =>
  inferInstanceAs (Decidable (_ = true))

instance : IsTotal Str strLe := ⟨fun a b => strLeB_total a b⟩

instance : IsTrans Str strLe := ⟨fun a b c => strLeB_trans a b c⟩

/-- The sortedness invariant claimed for playlists: pairwise ordered by
case-insensitive filename. -/
def sortedByName (videos : List VideoInfo) : Prop :=
  List.Pairwise videoNameLe videos

instance (videos : List VideoInfo) : Decidable (sortedByName videos) :=
  inferInstanceAs (Decidable (List.Pairwise _ _))

/-- The body of the directory scan in
`PlaylistManager.load_videos_from_directory`: keep regular files whose
lower-cased extension is supported and whose metadata is readable, build a
`VideoInfo` for each, and sort by case-insensitive filename. -/
def loadScan (supported_formats : List Str) (entries : List FileEntry) : List VideoInfo :=
  List.insertionSort videoNameLe
    ((entries.filter (fun e =>
        e.is_file && supported_formats.contains (lowerStr e.suffix) && e.stat_ok)).map
      (fun e => { file_path := e.name, filename := e.name, file_size := e.size,
                  format_extension := lowerStr e.suffix }))

/-- `playlist_manager.py` `PlaylistManager.load_videos_from_directory`:
missing directory loads nothing; otherwise the playlist content is replaced
by the scan result, the cursor reset to 0, and the current strategy reset
(which clears the shuffle state only when shuffle is current).  Returns the
number of loaded videos with the new manager state. -/
def load_videos_from_directory (supported_formats : List Str) (dir : Directory)
    (m : PlaylistManager) : Nat × PlaylistManager :=
  if dir.present = false then (0, m)
  else
    let videos := loadScan supported_formats dir.entries
    let pl1 := { m.playlist with videos := videos, current_index := 0 }
    match m.current_strategy with
    | .sequential => (videos.length, { m with playlist := SequentialStrategy.reset pl1 })
    | .shuffle =>
      let r := ShuffleStrategy.reset pl1
      (videos.length, { m with playlist := r.1, shuffle_state := r.2 })

/-- The `VideoInfo` built by `PlaylistManager.add_video` from a path (the
pydantic validators fill the filename, the lower-cased extension, and a size
of 0 when `stat` fails). -/
def addedVideo (f : FileEntry) : VideoInfo :=
  { file_path := f.name, filename := f.name,
    file_size := if f.stat_ok then f.size else 0,
    format_extension := lowerStr f.suffix }

/-- `playlist_manager.py` `PlaylistManager.add_video`: reject missing files
and unsupported extensions, otherwise append the new entry at the end of the
playlist. -/
def add_video (supported_formats : List Str) (f : FileEntry) (m : PlaylistManager) :
    Bool × PlaylistManager :=
  if f.on_disk = false then (false, m)
  else if lowerStr f.suffix ∉ supported_formats then (false, m)
  else (true, { m with playlist := { m.playlist with
      videos := m.playlist.videos ++ [addedVideo f] } })

/-- State of `video_scanner.py` `VideoScanner`: the cached path set. -/
structure VideoScanner where
  cached_videos : List Str
deriving DecidableEq, Repr

/-- The body of `VideoScanner.scan_videos`: keep regular files with a
supported lower-cased extension that are accessible and non-empty
(`stat().st_size > 0`), and sort the resulting paths. -/
def scanList (supported_formats : List Str) (entries : List FileEntry) : List Str :=
  List.insertionSort strLe
    ((entries.filter (fun e =>
        e.is_file && supported_formats.contains (lowerStr e.suffix) && e.stat_ok &&
          decide (0 < e.size))).map FileEntry.name)

/-- `video_scanner.py` `VideoScanner.scan_videos`: scan the directory and
replace the cached set with the scan result before returning it. -/
def scan_videos (supported_formats : List Str) (dir : Directory) (sc : VideoScanner) :
    List Str × VideoScanner :=
  if dir.present = false then ([], sc)
  else
    let files := scanList supported_formats dir.entries
    (files, ⟨files⟩)

/-- A Pending Change Notification as assembled in
`VideoScanner._handle_file_change`. -/
structure ChangeNote where
  event_type : Str
  added : List Str
  removed : List Str
  total_videos : Nat
deriving DecidableEq, Repr

/-- `video_scanner.py` `VideoScanner._handle_file_change`: rescan (which
itself replaces the cache), diff the scan result against the cache, invoke
the callback when the diff is non-empty, then store the scan result as the
new cache.  Returns the new scanner state and the list of emitted
notifications. -/
def handle_file_change (supported_formats : List Str) (dir : Directory)
    (event_type : Str) (has_callback : Bool) (sc : VideoScanner) :
    VideoScanner × List ChangeNote :=
  let scanned := scan_videos supported_formats dir sc
  let current_videos := scanned.1
  let sc1 := scanned.2
  let added_videos := current_videos.filter (fun p => ! sc1.cached_videos.contains p)
  let removed_videos := sc1.cached_videos.filter (fun p => ! current_videos.contains p)
  let notes :=
    if has_callback = true ∧ (added_videos ≠ [] ∨ removed_videos ≠ []) then
      [⟨event_type, added_videos, removed_videos, current_videos.length⟩]
    else []
  (⟨current_videos⟩, notes)

theorem load_videos_result (formats : List Str) (dir : Directory) (m : PlaylistManager)
    (hp : dir.present = true) :
    (load_videos_from_directory formats dir m).2.playlist.videos =
      loadScan formats dir.entries ∧
    (load_videos_from_directory formats dir m).2.playlist.current_index = 0 ∧
    (load_videos_from_directory formats dir m).2.shuffle_state =
      (if m.current_strategy = .shuffle then ShuffleState.init else m.shuffle_state) ∧
    (load_videos_from_directory formats dir m).1 =
      (loadScan formats dir.entries).length := by
  obtain ⟨pl, ss, cs⟩ := m
  unfold load_videos_from_directory
  rw [if_neg (by simp [hp])]
  cases cs with
  | sequential => exact ⟨rfl, rfl, by simp, rfl⟩
  | shuffle => exact ⟨rfl, rfl, by simp [ShuffleStrategy.reset], rfl⟩

/-- An empty playlist manager in sequential mode. -/
def emptyMgr : PlaylistManager :=
  { playlist := ⟨[], 0, false, true⟩,
    shuffle_state := ⟨[], none⟩, current_strategy := .sequential }

/-- A sequential-mode manager whose shuffle strategy still holds stale
internal state (the system was in shuffle mode earlier). -/
def dirtySeqMgr : PlaylistManager :=
  { playlist := ⟨[], 5, false, true⟩,
    shuffle_state := ⟨[0], some 0⟩, current_strategy := .sequential }

/-- A directory holding one valid video. -/
def oneVideoDir : Directory :=
  ⟨true, [⟨"v.mp4".data, true, ".mp4".data, 7, true, true⟩]⟩

/-- Counterexample to C6 as stated: a successful reload (one video loaded)
performed while the sequential strategy is current leaves the shuffle
strategy's internal state untouched rather than clearing it. -/
theorem reload_keeps_shuffle_state_counterexample :
    (load_videos_from_directory [".mp4".data] oneVideoDir dirtySeqMgr).1 = 1 ∧
    (load_videos_from_directory [".mp4".data] oneVideoDir dirtySeqMgr).2.shuffle_state =
      ⟨[0], some 0⟩ ∧
    (⟨[0], some 0⟩ : ShuffleState) ≠ ShuffleState.init := by decide

/-- C6 (amended): every reload over an existing directory resets the cursor
to 0 and resets the internal state of the *current* strategy only: the
shuffle state is cleared when shuffle is the current strategy and left
unchanged when the sequential strategy is current. -/
theorem reload_resets_cursor_and_current_strategy (formats : List Str)
    (dir : Directory) (m : PlaylistManager) (hp : dir.present = true) :
    (load_videos_from_directory formats dir m).2.playlist.current_index = 0 ∧
    (m.current_strategy = .shuffle →
      (load_videos_from_directory formats dir m).2.shuffle_state = ShuffleState.init) ∧
    (m.current_strategy = .sequential →
      (load_videos_from_directory formats dir m).2.shuffle_state = m.shuffle_state) := by
  obtain ⟨_, h2, h3, _⟩ := load_videos_result formats dir m hp
  refine ⟨h2, ?_, ?_⟩
  · intro hc
    rw [h3, if_pos hc]
  · intro hc
    rw [h3, if_neg (by rw [hc]; simp)]

/-- Witness for the amended reload theorem (C6) at a shuffle-mode manager
with stale state and a concrete directory. -/
theorem reload_resets_cursor_and_current_strategy_witness :
    (oneVideoDir.present = true) ∧
    ((load_videos_from_directory [".mp4".data] oneVideoDir
        ⟨⟨[], 5, true, true⟩, ⟨[0], some 0⟩, .shuffle⟩).2.playlist.current_index = 0 ∧
    ((⟨⟨[], 5, true, true⟩, ⟨[0], some 0⟩, .shuffle⟩ : PlaylistManager).current_strategy =
        .shuffle →
      (load_videos_from_directory [".mp4".data] oneVideoDir
        ⟨⟨[], 5, true, true⟩, ⟨[0], some 0⟩, .shuffle⟩).2.shuffle_state = ShuffleState.init) ∧
    ((⟨⟨[], 5, true, true⟩, ⟨[0], some 0⟩, .shuffle⟩ : PlaylistManager).current_strategy =
        .sequential →
      (load_videos_from_directory [".mp4".data] oneVideoDir
        ⟨⟨[], 5, true, true⟩, ⟨[0], some 0⟩, .shuffle⟩).2.shuffle_state =
        (⟨⟨[], 5, true, true⟩, ⟨[0], some 0⟩, .shuffle⟩ : PlaylistManager).shuffle_state)) :=
  ⟨rfl, reload_resets_cursor_and_current_strategy [".mp4".data] oneVideoDir
    ⟨⟨[], 5, true, true⟩, ⟨[0], some 0⟩, .shuffle⟩ rfl⟩

theorem mem_loadScan (formats : List Str) (entries : List FileEntry) (e : FileEntry)
    (he : e ∈ entries) (hnd : (entries.map FileEntry.name).Nodup) :
    (∃ v ∈ loadScan formats entries, v.file_path = e.name) ↔
      (e.is_file = true ∧ lowerStr e.suffix ∈ formats ∧ e.stat_ok = true) := by
  unfold loadScan
  constructor
  · rintro ⟨v, hv, hveq⟩
    rw [List.mem_insertionSort] at hv
    obtain ⟨e2, he2, hmap⟩ := List.mem_map.mp hv
    have he2f := List.mem_filter.mp he2
    have hname : e2.name = e.name := by rw [← hveq, ← hmap]
    have hee : e2 = e := List.inj_on_of_nodup_map hnd he2f.1 he hname
    rw [hee] at he2f
    have hpred := he2f.2
    simp only [Bool.and_eq_true] at hpred
    refine ⟨hpred.1.1, by simpa using hpred.1.2, hpred.2⟩
  · rintro ⟨h1, h2, h3⟩
    refine ⟨⟨e.name, e.name, e.size, lowerStr e.suffix⟩, ?_, rfl⟩
    rw [List.mem_insertionSort]
    apply List.mem_map.mpr
    refine ⟨e, List.mem_filter.mpr ⟨he, ?_⟩, rfl⟩
    simp only [Bool.and_eq_true]
    exact ⟨⟨h1, by simpa using h2⟩, h3⟩

theorem mem_scanList (formats : List Str) (entries : List FileEntry) (e : FileEntry)
    (he : e ∈ entries) (hnd : (entries.map FileEntry.name).Nodup) :
    e.name ∈ scanList formats entries ↔
      (e.is_file = true ∧ lowerStr e.suffix ∈ formats ∧ e.stat_ok = true ∧ 0 < e.size) := by
  unfold scanList
  rw [List.mem_insertionSort]
  constructor
  · intro hv
    obtain ⟨e2, he2, hmap⟩ := List.mem_map.mp hv
    have he2f := List.mem_filter.mp he2
    have hee : e2 = e := List.inj_on_of_nodup_map hnd he2f.1 he hmap
    rw [hee] at he2f
    have hpred := he2f.2
    simp only [Bool.and_eq_true] at hpred
    exact ⟨hpred.1.1.1, by simpa using hpred.1.1.2, hpred.1.2, by simpa using hpred.2⟩
  · rintro ⟨h1, h2, h3, h4⟩
    apply List.mem_map.mpr
    refine ⟨e, List.mem_filter.mpr ⟨he, ?_⟩, rfl⟩
    simp only [Bool.and_eq_true]
    exact ⟨⟨⟨h1, by simpa using h2⟩, h3⟩, by simpa using h4⟩

/-- Counterexample to C7 as stated: an empty (zero-byte) regular file with
an allowed extension is included by the playlist loader but excluded from
the reconciler's rescan, so size does affect scan membership. -/
theorem scanner_excludes_zero_size_counterexample :
    (⟨"a.mp4".data, true, ".mp4".data, 0, true, true⟩ : FileEntry).is_file = true ∧
    lowerStr (⟨"a.mp4".data, true, ".mp4".data, 0, true, true⟩ : FileEntry).suffix ∈
      [".mp4".data] ∧
    (scan_videos [".mp4".data]
      ⟨true, [⟨"a.mp4".data, true, ".mp4".data, 0, true, true⟩]⟩ ⟨[]⟩).1 = [] ∧
    (load_videos_from_directory [".mp4".data]
      ⟨true, [⟨"a.mp4".data, true, ".mp4".data, 0, true, true⟩]⟩ emptyMgr).1 = 1 := by
  decide

/-- C7 (amended): for an existing directory with distinct child names, the
playlist loader includes a child iff it is a regular file with a supported
lower-cased extension and readable metadata (its size is irrelevant), while
the reconciler's rescan additionally requires a strictly positive size. -/
theorem scan_membership_rule (formats : List Str) (dir : Directory)
    (m : PlaylistManager) (sc : VideoScanner) (e : FileEntry)
    (hp : dir.present = true) (he : e ∈ dir.entries)
    (hnd : (dir.entries.map FileEntry.name).Nodup) :
    ((∃ v ∈ (load_videos_from_directory formats dir m).2.playlist.videos,
        v.file_path = e.name) ↔
      (e.is_file = true ∧ lowerStr e.suffix ∈ formats ∧ e.stat_ok = true)) ∧
    (e.name ∈ (scan_videos formats dir sc).1 ↔
      (e.is_file = true ∧ lowerStr e.suffix ∈ formats ∧ e.stat_ok = true ∧
        0 < e.size)) := by
  have hv := (load_videos_result formats dir m hp).1
  have hs : (scan_videos formats dir sc).1 = scanList formats dir.entries := by
    unfold scan_videos
    rw [if_neg (by simp [hp])]
  rw [hv, hs]
  exact ⟨mem_loadScan formats dir.entries e he hnd,
    mem_scanList formats dir.entries e he hnd⟩

/-- Witness for the amended scan-membership theorem (C7) at a concrete
directory containing a matching and a non-matching file. -/
theorem scan_membership_rule_witness :
    ((⟨true, [⟨"a.mp4".data, true, ".mp4".data, 3, true, true⟩,
        ⟨"x.txt".data, true, ".txt".data, 4, true, true⟩]⟩ : Directory).present = true ∧
      (⟨"a.mp4".data, true, ".mp4".data, 3, true, true⟩ : FileEntry) ∈
        (⟨true, [⟨"a.mp4".data, true, ".mp4".data, 3, true, true⟩,
          ⟨"x.txt".data, true, ".txt".data, 4, true, true⟩]⟩ : Directory).entries) ∧
    (((∃ v ∈ (load_videos_from_directory [".mp4".data]
        ⟨true, [⟨"a.mp4".data, true, ".mp4".data, 3, true, true⟩,
          ⟨"x.txt".data, true, ".txt".data, 4, true, true⟩]⟩
        emptyMgr).2.playlist.videos,
        v.file_path = (⟨"a.mp4".data, true, ".mp4".data, 3, true, true⟩ : FileEntry).name) ↔
      ((⟨"a.mp4".data, true, ".mp4".data, 3, true, true⟩ : FileEntry).is_file = true ∧
        lowerStr (⟨"a.mp4".data, true, ".mp4".data, 3, true, true⟩ : FileEntry).suffix ∈
          [".mp4".data] ∧
        (⟨"a.mp4".data, true, ".mp4".data, 3, true, true⟩ : FileEntry).stat_ok = true)) ∧
    ((⟨"a.mp4".data, true, ".mp4".data, 3, true, true⟩ : FileEntry).name ∈
        (scan_videos [".mp4".data]
          ⟨true, [⟨"a.mp4".data, true, ".mp4".data, 3, true, true⟩,
            ⟨"x.txt".data, true, ".txt".data, 4, true, true⟩]⟩ ⟨[]⟩).1 ↔
      ((⟨"a.mp4".data, true, ".mp4".data, 3, true, true⟩ : FileEntry).is_file = true ∧
        lowerStr (⟨"a.mp4".data, true, ".mp4".data, 3, true, true⟩ : FileEntry).suffix ∈
          [".mp4".data] ∧
        (⟨"a.mp4".data, true, ".mp4".data, 3, true, true⟩ : FileEntry).stat_ok = true ∧
        0 < (⟨"a.mp4".data, true, ".mp4".data, 3, true, true⟩ : FileEntry).size))) :=
  ⟨⟨by decide, by decide⟩,
    scan_membership_rule [".mp4".data]
      ⟨true, [⟨"a.mp4".data, true, ".mp4".data, 3, true, true⟩,
        ⟨"x.txt".data, true, ".txt".data, 4, true, true⟩]⟩
      emptyMgr ⟨[]⟩ ⟨"a.mp4".data, true, ".mp4".data, 3, true, true⟩
      (by decide) (by decide) (by decide)⟩

/-- A manager holding the single sorted entry `b.mp4`. -/
def sortedBMgr : PlaylistManager :=
  { playlist := ⟨[⟨"b.mp4".data, "b.mp4".data, 2, ".mp4".data⟩], 0, false, true⟩,
    shuffle_state := ⟨[], none⟩, current_strategy := .sequential }

/-- Counterexample to C8 as stated: adding `a.mp4` to the sorted playlist
`[b.mp4]` succeeds but appends at the end, leaving the list unsorted. -/
theorem add_video_breaks_sort_counterexample :
    (add_video [".mp4".data] ⟨"a.mp4".data, true, ".mp4".data, 5, true, true⟩
      sortedBMgr).1 = true ∧
    sortedByName sortedBMgr.playlist.videos ∧
    ¬ sortedByName (add_video [".mp4".data]
      ⟨"a.mp4".data, true, ".mp4".data, 5, true, true⟩ sortedBMgr).2.playlist.videos := by
  decide

/-- C8 (amended): the case-insensitive filename sort order is established by
every directory load, but `add_video` merely appends the new entry at the
end of the playlist and does not re-establish sortedness. -/
theorem load_sorts_add_appends (formats : List Str) (dir : Directory)
    (m : PlaylistManager) (f : FileEntry) (hp : dir.present = true) :
    sortedByName (load_videos_from_directory formats dir m).2.playlist.videos ∧
    ((add_video formats f m).1 = true →
      (add_video formats f m).2.playlist.videos =
        m.playlist.videos ++ [addedVideo f]) := by
  constructor
  · rw [(load_videos_result formats dir m hp).1]
    unfold loadScan
    exact List.sorted_insertionSort videoNameLe _
  · intro hadd
    unfold add_video at hadd ⊢
    by_cases h1 : f.on_disk = false
    · rw [if_pos h1] at hadd
      exact absurd hadd (by simp)
    · rw [if_neg h1] at hadd ⊢
      by_cases h2 : lowerStr f.suffix ∉ formats
      · rw [if_pos h2] at hadd
        exact absurd hadd (by simp)
      · rw [if_neg h2]

/-- Witness for the amended sort theorem (C8) at a concrete directory and a
concrete added file. -/
theorem load_sorts_add_appends_witness :
    (oneVideoDir.present = true) ∧
    (sortedByName (load_videos_from_directory [".mp4".data] oneVideoDir
        sortedBMgr).2.playlist.videos ∧
    ((add_video [".mp4".data] ⟨"a.mp4".data, true, ".mp4".data, 5, true, true⟩
        sortedBMgr).1 = true →
      (add_video [".mp4".data] ⟨"a.mp4".data, true, ".mp4".data, 5, true, true⟩
        sortedBMgr).2.playlist.videos =
        sortedBMgr.playlist.videos ++
          [addedVideo ⟨"a.mp4".data, true, ".mp4".data, 5, true, true⟩])) :=
  ⟨rfl, load_sorts_add_appends [".mp4".data] oneVideoDir sortedBMgr
    ⟨"a.mp4".data, true, ".mp4".data, 5, true, true⟩ rfl⟩

/-- C1 (documents the code bug): whenever the watched directory exists,
`_handle_file_change` emits no notification at all — `scan_videos` replaces
the cached set before the diff is taken, so `added` and `removed` are always
empty and the change callback can never fire.  In particular, in the claimed
scenario (cache `{a.mp4, b.mp4}`, directory now holding `{b.mp4, c.mp4}`)
the handler emits zero notifications instead of one with
`added = {c.mp4}`, `removed = {a.mp4}`. -/
theorem reconciler_never_notifies (formats : List Str) (dir : Directory)
    (ev : Str) (cb : Bool) (sc : VideoScanner) (hp : dir.present = true) :
    (handle_file_change formats dir ev cb sc).2 = [] ∧
    handle_file_change [".mp4".data]
        ⟨true, [⟨"b.mp4".data, true, ".mp4".data, 2, true, true⟩,
          ⟨"c.mp4".data, true, ".mp4".data, 3, true, true⟩]⟩
        "created".data true ⟨["a.mp4".data, "b.mp4".data]⟩ =
      (⟨["b.mp4".data, "c.mp4".data]⟩, []) := by
  constructor
  · unfold handle_file_change
    have hs : scan_videos formats dir sc =
        (scanList formats dir.entries, ⟨scanList formats dir.entries⟩) := by
      unfold scan_videos
      rw [if_neg (by simp [hp])]
    rw [hs]
    dsimp only
    have hadded : (scanList formats dir.entries).filter
        (fun p => ! (scanList formats dir.entries).contains p) = [] := by
      rw [List.filter_eq_nil_iff]
      intro a ha
      simp [ha]
    rw [hadded]
    simp
  · decide

/-- Witness for the reconciler theorem (C1) at a concrete directory and
cache. -/
theorem reconciler_never_notifies_witness :
    (oneVideoDir.present = true) ∧
    ((handle_file_change [".mp4".data] oneVideoDir "created".data true
        ⟨["old.mp4".data]⟩).2 = [] ∧
    handle_file_change [".mp4".data]
        ⟨true, [⟨"b.mp4".data, true, ".mp4".data, 2, true, true⟩,
          ⟨"c.mp4".data, true, ".mp4".data, 3, true, true⟩]⟩
        "created".data true ⟨["a.mp4".data, "b.mp4".data]⟩ =
      (⟨["b.mp4".data, "c.mp4".data]⟩, [])) :=
  ⟨rfl, reconciler_never_notifies [".mp4".data] oneVideoDir "created".data true
    ⟨["old.mp4".data]⟩ rfl⟩
